import Mathlib

/-!
Verification of the trace-collection module (`bkz_stats.py`) of this
repository: statistics aggregation (`Statistic`), the labelled trace tree
(`Node`), the scoped trace context (`TraceContext`), the tracers, and the
textual rendering (`pretty_dict`).

Numbers are modelled as rationals (`ℚ`): the Python code manipulates ints
and floats with exact small values in every behaviour the claims describe;
`ℚ` gives the same ordered-field algebra without floating-point rounding.
Python exceptions are modelled with `Except`/`Option`: `PErr.modeMismatch`
stands for the `ValueError` raised on combining statistics of different
modes, `PErr.keyError` for `KeyError`, `PErr.attrError` for the
`AttributeError` raised by `Node.get`.
-/

/-- The scalarization mode of a `Statistic` (the Python `repr` constructor
argument: one of `"min"`, `"max"`, `"avg"`, `"sum"`, `"variance"`). -/
inductive Mode where
  | min
  | max
  | avg
  | sum
  | variance
  deriving DecidableEq

/-- `Statistic` from `bkz_stats.py`: fields `smin`, `smax`, `ssum`, `ssqr`,
`sctr`, `srepr` are the Python attributes `_min`, `_max`, `_sum`, `_sqr`,
`_ctr`, `_repr`. -/
@[ext]
structure Statistic where
  smin : ℚ
  smax : ℚ
  ssum : ℚ
  ssqr : ℚ
  sctr : ℕ
  srepr : Mode
  deriving DecidableEq

/-- `Statistic.__init__(value, repr, count)`: min = max = sum = value,
sqr = value*value, ctr = 1 if count else 0. -/
def Statistic.new (value : ℚ) (mode : Mode) (count : Bool) : Statistic :=
  ⟨value, value, value, value * value, if count then 1 else 0, mode⟩

/-- `Statistic.add(value)`: fold one observation into the statistic. -/
def Statistic.add (s : Statistic) (v : ℚ) : Statistic :=
  ⟨min s.smin v, max s.smax v, s.ssum + v, s.ssqr + v * v, s.sctr + 1, s.srepr⟩

/-- `Statistic.avg` property: `_sum/_ctr`.  Python raises
`ZeroDivisionError` when `_ctr = 0`; that failure is `none` here. -/
def Statistic.avgQ (s : Statistic) : Option ℚ :=
  if s.sctr = 0 then none else some (s.ssum / s.sctr)

/-- `Statistic.variance` property: `_sqr/_ctr - avg**2`; `none` models the
`ZeroDivisionError` when `_ctr = 0`. -/
def Statistic.varianceQ (s : Statistic) : Option ℚ :=
  if s.sctr = 0 then none else some (s.ssqr / s.sctr - (s.ssum / s.sctr) ^ 2)

/-- The elementwise combination performed by `Statistic.__add__` on two
statistics (after its mode check): min of mins, max of maxes, sums of
sums, squares and counters, left operand's mode. -/
def Statistic.combine (a b : Statistic) : Statistic :=
  ⟨min a.smin b.smin, max a.smax b.smax, a.ssum + b.ssum, a.ssqr + b.ssqr,
    a.sctr + b.sctr, a.srepr⟩

/-- Python exceptions of the module that the claims mention. -/
inductive PErr where
  | modeMismatch
  | keyError
  | attrError
  deriving DecidableEq

/-- The values stored in a trace node's data dictionary: plain numbers or
`Statistic` objects. -/
inductive Value where
  | num (q : ℚ)
  | stat (s : Statistic)
  deriving DecidableEq

/-- `Statistic.__add__(other)`: three-way dispatch on the right operand —
`None` yields a copy of `self`, a number is inserted with `add` into a
copy, a `Statistic` is combined (raising `ValueError` on a mode
mismatch). -/
def Statistic.plus (a : Statistic) : Option Value → Except PErr Value
  | none => .ok (.stat a)
  | some (.num x) => .ok (.stat (a.add x))
  | some (.stat b) =>
      if a.srepr = b.srepr then .ok (.stat (a.combine b)) else .error .modeMismatch

/-- Python `+` on two data values as it happens inside the module:
number + number is rational addition; number + Statistic falls back to
`Statistic.__radd__`, i.e. `stat + number`; Statistic on the left uses
`Statistic.__add__`. -/
def Value.plus : Value → Value → Except PErr Value
  | .num x, .num y => .ok (.num (x + y))
  | .num x, .stat b => b.plus (some (.num x))
  | .stat a, v => a.plus (some v)

/-- `Statistic.__float__` / `__str__`: reduce the statistic to its scalar
under the chosen mode (`none` models the `ZeroDivisionError` of
`avg`/`variance` on a zero counter). -/
def Statistic.scalarize (s : Statistic) : Option ℚ :=
  match s.srepr with
  | .min => some s.smin
  | .max => some s.smax
  | .sum => some s.ssum
  | .avg => s.avgQ
  | .variance => s.varianceQ

/-- A finite sequence of `add` calls. -/
def Statistic.addList (s : Statistic) (l : List ℚ) : Statistic :=
  l.foldl Statistic.add s

theorem Statistic.add_right_comm (s : Statistic) (a b : ℚ) :
    (s.add a).add b = (s.add b).add a := by
  have hmax : max (max s.smax a) b = max (max s.smax b) a := by
    rw [max_assoc, max_comm a b, ← max_assoc]
  unfold Statistic.add
  simp only [Statistic.mk.injEq]
  refine ⟨min_right_comm _ _ _, hmax, by ring, by ring, ?_⟩
  simp

theorem Statistic.addList_perm (s : Statistic) {l₁ l₂ : List ℚ} (h : l₁.Perm l₂) :
    s.addList l₁ = s.addList l₂ := by
  induction h generalizing s with
  | nil => rfl
  | cons x _ ih => simpa [Statistic.addList] using ih (s.add x)
  | swap x y l =>
      simp [Statistic.addList, List.foldl, Statistic.add_right_comm]
  | trans _ _ ih₁ ih₂ => exact (ih₁ s).trans (ih₂ s)

theorem Statistic.addList_min_le (s : Statistic) (l : List ℚ) :
    (s.addList l).smin ≤ s.smin ∧ ∀ x ∈ l, (s.addList l).smin ≤ x := by
  induction l generalizing s with
  | nil => exact ⟨le_refl _, by simp⟩
  | cons a tl ih =>
      have h := ih (s.add a)
      have hmin : ((s.add a).addList tl).smin ≤ min s.smin a := h.1
      refine ⟨le_trans hmin (min_le_left _ _), ?_⟩
      intro x hx
      rcases List.mem_cons.mp hx with rfl | hx
      · exact le_trans hmin (min_le_right _ _)
      · exact h.2 x hx

theorem Statistic.addList_le_max (s : Statistic) (l : List ℚ) :
    s.smax ≤ (s.addList l).smax ∧ ∀ x ∈ l, x ≤ (s.addList l).smax := by
  induction l generalizing s with
  | nil => exact ⟨le_refl _, by simp⟩
  | cons a tl ih =>
      have h := ih (s.add a)
      have hmax : max s.smax a ≤ ((s.add a).addList tl).smax := h.1
      refine ⟨le_trans (le_max_left _ _) hmax, ?_⟩
      intro x hx
      rcases List.mem_cons.mp hx with rfl | hx
      · exact le_trans (le_max_right _ _) hmax
      · exact h.2 x hx

theorem Statistic.addList_ctr (s : Statistic) (l : List ℚ) :
    (s.addList l).sctr = s.sctr + l.length := by
  induction l generalizing s with
  | nil => rfl
  | cons a tl ih =>
      calc (s.addList (a :: tl)).sctr = ((s.add a).addList tl).sctr := rfl
        _ = (s.add a).sctr + tl.length := ih (s.add a)
        _ = s.sctr + (a :: tl).length := by
              show s.sctr + 1 + tl.length = s.sctr + (tl.length + 1)
              omega

/-- Claim C2: combining two `Statistic`s of equal mode returns the
elementwise combination (min of mins, max of maxes, sums of sums, squares
and counts) with the common mode preserved; combining different modes
fails with the mode-mismatch error.  (The embedded operations are pure, so
the operands are never mutated.) -/
theorem statistic_combine_spec (a b : Statistic) :
    a.plus (some (.stat b)) =
      if a.srepr = b.srepr then
        .ok (.stat ⟨min a.smin b.smin, max a.smax b.smax, a.ssum + b.ssum,
          a.ssqr + b.ssqr, a.sctr + b.sctr, a.srepr⟩)
      else .error .modeMismatch := by
  by_cases h : a.srepr = b.srepr <;> simp [Statistic.plus, Statistic.combine, h]

/-- Claim C3: after constructing a `Statistic` from a counted initial value
and performing any finite sequence of `add` calls, `min` bounds every
inserted value from below, `max` from above, the count is the number of
insertions, `avg` is `sum/count`, `variance` is `sumSquares/count − avg²`,
and the resulting statistic does not depend on the order of the `add`
calls. -/
theorem statistic_add_invariants (v₀ : ℚ) (m : Mode) (vs : List ℚ) (s : Statistic)
    (hs : s = (Statistic.new v₀ m true).addList vs) :
    (∀ x ∈ v₀ :: vs, s.smin ≤ x ∧ x ≤ s.smax) ∧
    s.sctr = vs.length + 1 ∧
    s.avgQ = some (s.ssum / s.sctr) ∧
    s.varianceQ = some (s.ssqr / s.sctr - (s.ssum / s.sctr) ^ 2) ∧
    ∀ vs', vs.Perm vs' → (Statistic.new v₀ m true).addList vs' = s := by
  subst hs
  have hctr := Statistic.addList_ctr (Statistic.new v₀ m true) vs
  have hctr' : ((Statistic.new v₀ m true).addList vs).sctr = vs.length + 1 := by
    rw [hctr]
    show 1 + vs.length = vs.length + 1
    omega
  refine ⟨?_, hctr', ?_, ?_, ?_⟩
  · intro x hx
    have hmin := Statistic.addList_min_le (Statistic.new v₀ m true) vs
    have hmax := Statistic.addList_le_max (Statistic.new v₀ m true) vs
    rcases List.mem_cons.mp hx with rfl | hx
    · exact ⟨le_trans hmin.1 (le_refl _), le_trans (le_refl _) hmax.1⟩
    · exact ⟨hmin.2 x hx, hmax.2 x hx⟩
  · simp [Statistic.avgQ, hctr']
  · simp [Statistic.varianceQ, hctr']
  · intro vs' hp
    exact Statistic.addList_perm _ hp.symm

/-- Witness for C3 at a concrete input: the invariants hold for the
statistic built from 1 with insertions `[3, 2]`, and permuting the
insertions to `[2, 3]` yields the same statistic. -/
theorem statistic_add_invariants_witness :
    List.Perm [(3 : ℚ), 2] [2, 3] ∧
    (Statistic.new 1 Mode.sum true).addList [2, 3] =
      (Statistic.new 1 Mode.sum true).addList [3, 2] :=
  ⟨by decide,
    (statistic_add_invariants 1 Mode.sum [3, 2] _ rfl).2.2.2.2 [2, 3] (by decide)⟩

/-- Helper: whether an `Except` result is a success. -/
def exceptOk {α : Type} (e : Except PErr α) : Bool :=
  match e with
  | .ok _ => true
  | .error _ => false

/-- Counterexample to claim C8 as stated: scalarizing a `Statistic`
constructed with the observation suppressed (`count=False`, so `_ctr = 0`)
and never added to fails (Python raises `ZeroDivisionError` in `avg`),
rather than returning a number. -/
theorem scalarize_count0_fails :
    (Statistic.new 2 Mode.avg false).scalarize = none := rfl

/-- `BKZTreeTracer.reenter` per time entry: the node's accumulator (absent
defaults to the plain number 0) plus a fresh non-counted sum-mode
`Statistic` seeded at minus the clock reading `t`. -/
def reenterStat (existing : Option Value) (t : ℚ) : Except PErr Value :=
  Value.plus (existing.getD (.num 0)) (.stat (Statistic.new (-t) Mode.sum false))

/-- Claim C9: each `reenter` combines the existing accumulator with a new
non-counted sum-mode statistic seeded at `−t`; an absent accumulator
behaves exactly like the zero sum-mode statistic `Statistic(0, "sum")`
combined with that new statistic, and when the accumulator is a sum-mode
statistic the observation count is left unchanged. -/
theorem reenter_spec (t : ℚ) (s : Statistic) (h : s.srepr = Mode.sum) :
    reenterStat none t =
      .ok (.stat ((Statistic.new 0 Mode.sum true).combine
        (Statistic.new (-t) Mode.sum false))) ∧
    reenterStat (some (.stat s)) t =
      .ok (.stat (s.combine (Statistic.new (-t) Mode.sum false))) ∧
    (s.combine (Statistic.new (-t) Mode.sum false)).sctr = s.sctr := by
  refine ⟨?_, ?_, ?_⟩
  · have h0 : reenterStat none t =
        .ok (.stat ((Statistic.new (-t) Mode.sum false).add 0)) := rfl
    rw [h0]
    have : (Statistic.new (-t) Mode.sum false).add 0 =
        (Statistic.new 0 Mode.sum true).combine (Statistic.new (-t) Mode.sum false) := by
      unfold Statistic.new Statistic.add Statistic.combine
      simp only [Statistic.mk.injEq]
      refine ⟨min_comm _ _, max_comm _ _, by ring, by ring, ?_⟩
      simp
    rw [this]
  · simp [reenterStat, Value.plus, Statistic.plus, Statistic.new, h]
  · simp [Statistic.combine, Statistic.new]

/-- Witness for C9 at a concrete input. -/
theorem reenter_spec_witness :
    (Statistic.new 1 Mode.sum true).srepr = Mode.sum ∧
    reenterStat (some (.stat (Statistic.new 1 Mode.sum true))) 5 =
      .ok (.stat ((Statistic.new 1 Mode.sum true).combine
        (Statistic.new (-5) Mode.sum false))) :=
  ⟨by decide, (reenter_spec 5 (Statistic.new 1 Mode.sum true) (by decide)).2.1⟩

/-!
`TraceContext` (the scoped wrapper): `__enter__` calls `tracer.enter`, and
`__exit__` — which Python runs on every exit path from the `with` body,
normal or raising, before the exception continues to propagate — calls
`tracer.exit`.  A measured computation is modelled as a program built from
scoped wrappers, sequencing and primitive steps that either complete or
raise; running it yields the sequence of tracer enter/exit calls plus
whether an exception propagates out.
-/

/-- A tracer call observed during a run. -/
inductive TEvent where
  | enter
  | exit
  deriving DecidableEq

/-- Well-nested measured computations: a primitive step that completes
(`ret`), a primitive step that raises (`throw`), a body wrapped in a
`TraceContext` (`scoped`), and sequencing. -/
inductive Prog where
  | ret
  | throw
  | scope (body : Prog)
  | seq (p q : Prog)

/-- Run a program: the emitted tracer events and whether an exception
propagates.  `scoped` emits `enter`, runs the body, and emits `exit`
whether or not the body raised (the Python `with` protocol with an
`__exit__` that does not suppress); `seq` stops at the first raise. -/
def Prog.run : Prog → List TEvent × Bool
  | .ret => ([], false)
  | .throw => ([], true)
  | .scope body =>
      let r := body.run
      (TEvent.enter :: r.1 ++ [TEvent.exit], r.2)
  | .seq p q =>
      let rp := p.run
      if rp.2 then (rp.1, true)
      else
        let rq := q.run
        (rp.1 ++ rq.1, rq.2)

/-- Claim C1: around every scoped body the tracer's `exit` is called
exactly once, after the matching `enter`, whether the body completes or
raises; consequently every well-nested run built from scoped wrappers
emits equally many `enter` and `exit` calls. -/
theorem scoped_trace_balanced (p : Prog) :
    ((Prog.scope p).run.1 = TEvent.enter :: p.run.1 ++ [TEvent.exit] ∧
      (Prog.scope p).run.2 = p.run.2) ∧
    p.run.1.count TEvent.enter = p.run.1.count TEvent.exit := by
  refine ⟨⟨rfl, rfl⟩, ?_⟩
  induction p with
  | ret => rfl
  | throw => rfl
  | scope body ih =>
      simp [Prog.run, List.count_cons, List.count_append]
      omega
  | seq p q ihp ihq =>
      by_cases h : p.run.2 <;>
        simp [Prog.run, h, List.count_append, ihp, ihq]

/-!
The trace tree.  A node's label is either a plain token or an ordered
tuple of components (`root.child(("tour", 1))`); its data is an
insertion-ordered mapping (Python `OrderedDict`) from tag strings to
numbers or statistics.  The tree is a `Node`/`Forest` mutual inductive so
that every traversal below is structurally recursive.
-/

/-- One component of a label: a string or an integer. -/
inductive LabelPart where
  | str (s : String)
  | int (n : ℤ)
  deriving DecidableEq

/-- A node label: a plain token or a tuple of components. -/
inductive Label where
  | atom (a : LabelPart)
  | tup (l : List LabelPart)
  deriving DecidableEq

mutual

inductive Node where
  | mk (label : Label) (data : List (String × Value)) (children : Forest)

inductive Forest where
  | nil
  | cons (hd : Node) (tl : Forest)

end

def Node.label : Node → Label
  | .mk l _ _ => l

def Node.data : Node → List (String × Value)
  | .mk _ d _ => d

def Node.children : Node → Forest
  | .mk _ _ c => c

/-- `OrderedDict` lookup (`d[k]` / `d.get(k)`): first entry with the key. -/
def dlookup : List (String × Value) → String → Option Value
  | [], _ => none
  | (k, v) :: tl, t => if k = t then some v else dlookup tl t

/-- `OrderedDict` assignment `d[k] = v`: replace the value in place if the
key is present, else append the new entry. -/
def dAssign : List (String × Value) → String → Value → List (String × Value)
  | [], k, v => [(k, v)]
  | (k₀, v₀) :: tl, k, v =>
      if k₀ = k then (k₀, v) :: tl else (k₀, v₀) :: dAssign tl k v

/-- First child of the forest carrying the given label (the linear scan
shared by `Node.child`, `Node.find`'s first loop and `Node.get`). -/
def Forest.findDirect : Forest → Label → Option Node
  | .nil, _ => none
  | .cons c tl, l => if c.label = l then some c else Forest.findDirect tl l

mutual

/-- `Node.find(label, raise_keyerror)`: scan the direct children first;
then recurse.  With `raise_keyerror` (strict), a failed recursive call
raises `KeyError`, which the loop catches before trying the next child;
without it, the result of the **first** recursive call is returned
unconditionally (the Python `return child.find(...)` inside `try` never
raises when `raise_keyerror` is false).  `none` is `KeyError`/`None`. -/
def Node.find (strict : Bool) (lbl : Label) : Node → Option Node
  | .mk _ _ cs =>
      match Forest.findDirect cs lbl with
      | some c => some c
      | none => Forest.findRec strict lbl cs

def Forest.findRec (strict : Bool) (lbl : Label) : Forest → Option Node
  | .nil => none
  | .cons c tl =>
      match Node.find strict lbl c with
      | some r => some r
      | none => if strict then Forest.findRec strict lbl tl else none

end

mutual

/-- Whether some node of this subtree (the node itself included) carries
the label. -/
def Node.hasLabel (lbl : Label) : Node → Bool
  | .mk l _ cs => decide (l = lbl) || Forest.hasLabel lbl cs

def Forest.hasLabel (lbl : Label) : Forest → Bool
  | .nil => false
  | .cons c tl => Node.hasLabel lbl c || Forest.hasLabel lbl tl

end

/-- A concrete tree on which `Node.find` misses an existing node: the root
has children `a` (whose subtree, via grandchild `b`, contains no node
labelled `X`) and `c` (whose child is labelled `X`). -/
def findSample : Node :=
  .mk (.atom (.str "root")) []
    (.cons (.mk (.atom (.str "a")) []
        (.cons (.mk (.atom (.str "b")) [] .nil) .nil))
      (.cons (.mk (.atom (.str "c")) []
          (.cons (.mk (.atom (.str "X")) [] .nil) .nil))
        .nil))

/-- Claim C5 (the code violates it): a node labelled `X` exists in the
subtree below `findSample`'s children, yet non-strict `find` returns
absent — the recursion returns the first child's (empty) result without
ever examining the second child's subtree, so the search is not the
breadth-first search the claim (and the function's own docstring)
describes. -/
theorem find_misses_existing_match :
    Forest.hasLabel (.atom (.str "X")) findSample.children = true ∧
    findSample.find false (.atom (.str "X")) = none := by
  constructor <;> rfl

mutual

/-- `Node.sum(tag, include_self, raise_keyerror, label)`: the node's own
contribution is its value at `tag` when the node is included (`include_self`
and the label filter matches), else 0; a missing tag contributes `0` via
`data.get(tag, 0)` unless strict, where it raises `KeyError`; then each
child's recursive sum (always with `include_self=True`) is added with the
Python `+` of data values. -/
def Node.sumT (tag : String) (strict : Bool) (flt : Option Label) :
    Bool → Node → Except PErr Value
  | includeSelf, .mk lbl d cs =>
      let r₀ : Except PErr Value :=
        if includeSelf = true ∧ (flt = none ∨ flt = some lbl) then
          if strict then
            match dlookup d tag with
            | some v => .ok v
            | none => .error .keyError
          else .ok ((dlookup d tag).getD (.num 0))
        else .ok (.num 0)
      match r₀ with
      | .error e => .error e
      | .ok r => Forest.sumT tag strict flt r cs

def Forest.sumT (tag : String) (strict : Bool) (flt : Option Label) :
    Value → Forest → Except PErr Value
  | r, .nil => .ok r
  | r, .cons c tl =>
      match Node.sumT tag strict flt true c with
      | .error e => .error e
      | .ok s =>
          match Value.plus r s with
          | .error e => .error e
          | .ok r' => Forest.sumT tag strict flt r' tl

end

mutual

/-- Modelled from the spec's characterization of `sum`: the total of
`tag` over all included nodes of the subtree, an absent tag contributing
0 (numeric values). -/
def Node.specSum (tag : String) (flt : Option Label) : Bool → Node → ℚ
  | includeSelf, .mk lbl d cs =>
      (if includeSelf = true ∧ (flt = none ∨ flt = some lbl) then
        match dlookup d tag with
        | some (.num q) => q
        | _ => 0
       else 0) + Forest.specSum tag flt cs

def Forest.specSum (tag : String) (flt : Option Label) : Forest → ℚ
  | .nil => 0
  | .cons c tl => Node.specSum tag flt true c + Forest.specSum tag flt tl

end

mutual

/-- Whether every included node of the subtree defines `tag`. -/
def Node.allTag (tag : String) (flt : Option Label) : Bool → Node → Bool
  | includeSelf, .mk lbl d cs =>
      (if includeSelf = true ∧ (flt = none ∨ flt = some lbl) then
        (dlookup d tag).isSome
       else true) && Forest.allTag tag flt cs

def Forest.allTag (tag : String) (flt : Option Label) : Forest → Bool
  | .nil => true
  | .cons c tl => Node.allTag tag flt true c && Forest.allTag tag flt tl

end

mutual

/-- Every value stored under `tag` anywhere in the subtree is a plain
number (no `Statistic`), so additions during `sum` cannot mode-mismatch. -/
def Node.numAt (tag : String) : Node → Bool
  | .mk _ d cs =>
      (match dlookup d tag with
       | some (.stat _) => false
       | _ => true) && Forest.numAt tag cs

def Forest.numAt (tag : String) : Forest → Bool
  | .nil => true
  | .cons c tl => Node.numAt tag c && Forest.numAt tag tl

end

mutual

theorem Node.sumT_nonstrict (tag : String) (flt : Option Label) (isf : Bool) (n : Node)
    (h : Node.numAt tag n = true) :
    Node.sumT tag false flt isf n = .ok (.num (Node.specSum tag flt isf n)) := by
  cases n with
  | mk lbl d cs =>
      have hn : Forest.numAt tag cs = true := by
        have := h
        unfold Node.numAt at this
        simp only [Bool.and_eq_true] at this
        exact this.2
      have hown : (match dlookup d tag with
          | some (.stat _) => false
          | _ => true) = true := by
        have := h
        unfold Node.numAt at this
        simp only [Bool.and_eq_true] at this
        exact this.1
      by_cases hc : isf = true ∧ (flt = none ∨ flt = some lbl)
      · cases hd : dlookup d tag with
        | none =>
            simp only [Node.sumT, Node.specSum, hd, hc, if_true, Option.getD_none]
            exact Forest.sumT_fold_nonstrict tag flt 0 cs hn
        | some v =>
            cases v with
            | num q =>
                simp only [Node.sumT, Node.specSum, hd, hc, if_true, Option.getD_some]
                exact Forest.sumT_fold_nonstrict tag flt q cs hn
            | stat s => rw [hd] at hown; simp at hown
      · simp only [Node.sumT, Node.specSum, if_neg hc]
        exact Forest.sumT_fold_nonstrict tag flt 0 cs hn

theorem Forest.sumT_fold_nonstrict (tag : String) (flt : Option Label) (q : ℚ) (f : Forest)
    (h : Forest.numAt tag f = true) :
    Forest.sumT tag false flt (.num q) f = .ok (.num (q + Forest.specSum tag flt f)) := by
  cases f with
  | nil => simp [Forest.sumT, Forest.specSum]
  | cons c tl =>
      have hc : Node.numAt tag c = true := by
        have := h
        unfold Forest.numAt at this
        simp only [Bool.and_eq_true] at this
        exact this.1
      have ht : Forest.numAt tag tl = true := by
        have := h
        unfold Forest.numAt at this
        simp only [Bool.and_eq_true] at this
        exact this.2
      have hnode := Node.sumT_nonstrict tag flt true c hc
      have htl := Forest.sumT_fold_nonstrict tag flt (q + Node.specSum tag flt true c) tl ht
      simp only [Forest.sumT, hnode, Value.plus, Forest.specSum, htl]
      congr 2
      ring

end

mutual

theorem Node.sumT_strict (tag : String) (flt : Option Label) (isf : Bool) (n : Node)
    (h : Node.numAt tag n = true) :
    Node.sumT tag true flt isf n =
      if Node.allTag tag flt isf n = true then .ok (.num (Node.specSum tag flt isf n))
      else .error .keyError := by
  cases n with
  | mk lbl d cs =>
      have hsplit := h
      unfold Node.numAt at hsplit
      simp only [Bool.and_eq_true] at hsplit
      have hown := hsplit.1
      have hn := hsplit.2
      by_cases hc : isf = true ∧ (flt = none ∨ flt = some lbl)
      · cases hd : dlookup d tag with
        | none =>
            simp [Node.sumT, Node.allTag, hd, hc]
        | some v =>
            cases v with
            | num q =>
                have hf := Forest.sumT_fold_strict tag flt q cs hn
                simp [Node.sumT, Node.allTag, Node.specSum, hd, hc, hf]
            | stat s => rw [hd] at hown; simp at hown
      · have hf := Forest.sumT_fold_strict tag flt 0 cs hn
        simp [Node.sumT, Node.allTag, Node.specSum, hc, hf]

theorem Forest.sumT_fold_strict (tag : String) (flt : Option Label) (q : ℚ) (f : Forest)
    (h : Forest.numAt tag f = true) :
    Forest.sumT tag true flt (.num q) f =
      if Forest.allTag tag flt f = true then .ok (.num (q + Forest.specSum tag flt f))
      else .error .keyError := by
  cases f with
  | nil => simp [Forest.sumT, Forest.allTag, Forest.specSum]
  | cons c tl =>
      have hsplit := h
      unfold Forest.numAt at hsplit
      simp only [Bool.and_eq_true] at hsplit
      have hcn := hsplit.1
      have ht := hsplit.2
      have hnode := Node.sumT_strict tag flt true c hcn
      by_cases ha : Node.allTag tag flt true c = true
      · rw [if_pos ha] at hnode
        have htl := Forest.sumT_fold_strict tag flt (q + Node.specSum tag flt true c) tl ht
        simp only [Forest.sumT, hnode, Value.plus, Forest.allTag, Forest.specSum, ha,
          Bool.true_and]
        rw [htl]
        by_cases hb : Forest.allTag tag flt tl = true
        · rw [if_pos hb, if_pos hb]
          congr 2
          ring
        · rw [if_neg hb, if_neg hb]
      · rw [if_neg ha] at hnode
        have ha' : Node.allTag tag flt true c = false := by
          cases hx : Node.allTag tag flt true c
          · rfl
          · exact absurd hx ha
        simp [Forest.sumT, hnode, Forest.allTag, ha']

end

/-- Claim C6 (amended): over a subtree whose values at `tag` are plain
numbers, `sum` folds the value at `tag` across the whole subtree — the
root contributes only when `include_self`, descendants contribute
unconditionally, each only when the label filter is absent or equal to
its label; an included node missing the tag contributes 0 in non-strict
mode, while in strict mode the fold fails with `KeyError` exactly when
some included node lacks the tag.  (For `Statistic`-valued tags the
original claim is false: the plain 0 contributed by an included node
missing the tag is folded into the running statistic as one extra
observation — see the counterexample below the `pretty_dict` section.) -/
theorem node_sum_spec (n : Node) (tag : String) (flt : Option Label) (isf : Bool)
    (h : Node.numAt tag n = true) :
    Node.sumT tag false flt isf n = .ok (.num (Node.specSum tag flt isf n)) ∧
    Node.sumT tag true flt isf n =
      (if Node.allTag tag flt isf n = true then .ok (.num (Node.specSum tag flt isf n))
       else .error .keyError) :=
  ⟨Node.sumT_nonstrict tag flt isf n h, Node.sumT_strict tag flt isf n h⟩

/-- A small tree with numeric data for the C6 witness: the root holds
`a = 1`, one child holds `a = 2`, the other lacks `a`. -/
def sumSample : Node :=
  .mk (.atom (.str "root")) [("a", .num 1)]
    (.cons (.mk (.atom (.str "k")) [("a", .num 2)] .nil)
      (.cons (.mk (.atom (.str "m")) [] .nil) .nil))

/-- Witness for C6 at a concrete input. -/
theorem node_sum_spec_witness :
    Node.numAt "a" sumSample = true ∧
    Node.sumT "a" false none true sumSample = .ok (.num (Node.specSum "a" none true sumSample)) ∧
    Node.specSum "a" none true sumSample = 3 :=
  ⟨rfl, (node_sum_spec sumSample "a" none true rfl).1,
    by norm_num [Node.specSum, Forest.specSum, sumSample, dlookup]⟩

/-- The result of `Node.get`: a single child or the ordered tuple of
children whose tuple label starts with the requested label. -/
inductive GetResult where
  | single (n : Node)
  | family (l : List Node)

/-- `isinstance(child.label, tuple) and child.label[0] == label`: the
child's label is a (non-empty) tuple whose first component equals the
requested label. -/
def tupleFirstMatch (childLabel requested : Label) : Bool :=
  match childLabel with
  | .tup (p :: _) => decide (Label.atom p = requested)
  | _ => false

/-- The scan loop of `Node.get(label)`: return the first child whose label
equals `label`; collect along the way every child whose tuple label starts
with `label`; when the scan ends return the collection if non-empty, else
raise `AttributeError`. -/
def Forest.getScan : Forest → Label → List Node → Except PErr GetResult
  | .nil, _, acc => if acc.isEmpty then .error .attrError else .ok (.family acc)
  | .cons c tl, l, acc =>
      if c.label = l then .ok (.single c)
      else Forest.getScan tl l (if tupleFirstMatch c.label l then acc ++ [c] else acc)

/-- `Node.get(label)`. -/
def Node.getByLabel (n : Node) (l : Label) : Except PErr GetResult :=
  Forest.getScan n.children l []

/-- The ordered list of direct children whose tuple label starts with the
requested label (the declarative description of `get`'s family result). -/
def Forest.familyOf : Forest → Label → List Node
  | .nil, _ => []
  | .cons c tl, l =>
      if tupleFirstMatch c.label l then c :: Forest.familyOf tl l
      else Forest.familyOf tl l

theorem Forest.getScan_characterization (f : Forest) (l : Label) (acc : List Node) :
    Forest.getScan f l acc =
      match Forest.findDirect f l with
      | some c => .ok (.single c)
      | none =>
          if (acc ++ Forest.familyOf f l).isEmpty then .error .attrError
          else .ok (.family (acc ++ Forest.familyOf f l)) := by
  cases f with
  | nil => simp only [Forest.getScan, Forest.findDirect, Forest.familyOf, List.append_nil]
  | cons c tl =>
      by_cases hl : c.label = l
      · simp [Forest.getScan, Forest.findDirect, hl]
      · by_cases hm : tupleFirstMatch c.label l = true
        · have ih := Forest.getScan_characterization tl l (acc ++ [c])
          have hfam : Forest.familyOf (.cons c tl) l = c :: Forest.familyOf tl l := by
            simp [Forest.familyOf, hm]
          simp only [hfam]
          simp [Forest.getScan, Forest.findDirect, hl, hm, ih]
        · have ih := Forest.getScan_characterization tl l acc
          have hfam : Forest.familyOf (.cons c tl) l = Forest.familyOf tl l := by
            simp [Forest.familyOf, hm]
          simp only [hfam]
          simp [Forest.getScan, Forest.findDirect, hl, hm, ih]

/-- Counterexample to claim C7 as stated: on a node whose only child is
labelled `bar`, looking up `foo` raises `AttributeError` instead of
returning absent. -/
theorem get_no_match_raises :
    (Node.mk (.atom (.str "root")) []
        (.cons (.mk (.atom (.str "bar")) [] .nil) .nil)).getByLabel
      (.atom (.str "foo")) = .error .attrError := rfl

/-- Claim C7 (amended): `Node.get` returns the first direct child whose
label equals `L` when one exists; otherwise, when at least one direct
child has a tuple label whose first component equals `L`, the ordered
collection of all such children; otherwise it fails with
`AttributeError` (it does not return absent). -/
theorem node_get_spec (n : Node) (l : Label) :
    n.getByLabel l =
      match Forest.findDirect n.children l with
      | some c => .ok (.single c)
      | none =>
          if (Forest.familyOf n.children l).isEmpty then .error .attrError
          else .ok (.family (Forest.familyOf n.children l)) := by
  have h := Forest.getScan_characterization n.children l []
  simpa [Node.getByLabel] using h

/-!
`pretty_dict`: the textual rendering contract.  Values are modelled as
exact rationals; the module's inputs in the documented example (`2`,
`0.1`, `4097`) are exactly representable, and `%.6f`-style rounding of a
rational to a fixed number of decimals agrees with the printed doubles
there.  Braces are written `\x7b`/`\x7d` in string literals.
-/

/-- `"%*s"`: right-justify a string in a field of the given width. -/
def rightJust (w : ℕ) (s : String) : String :=
  if s.length < w then String.mk (List.replicate (w - s.length) ' ') ++ s else s

/-- Pad a digit string on the left with zeros up to `d` characters. -/
def padZeros (d : ℕ) (s : String) : String :=
  String.mk (List.replicate (d - s.length) '0') ++ s

/-- `"%w.df"`: fixed-point rendering of a rational with `d` decimals,
right-justified to width `w` (rounding to nearest, as printf does away
from ties). -/
def formatFixed (w d : ℕ) (q : ℚ) : String :=
  let n : ℕ := (round (|q| * (10 : ℚ) ^ d)).toNat
  let core := (if q < 0 then "-" else "") ++ toString (n / 10 ^ d) ++ "." ++
    padZeros d (toString (n % 10 ^ d))
  rightJust w core

/-- `round(10 * log2 q)` for a positive rational, computed exactly:
the unique `n` with `2 ^ (2n − 1) ≤ q ^ 20 < 2 ^ (2n + 1)` (printf's
`%.1f` of `log(q, 2)` away from exact ties). -/
def tenLog2 (q : ℚ) : ℤ :=
  (Int.log 2 (q ^ 20) + 1).fdiv 2

/-- `"%.1f"` of `n/10` for an integer `n`. -/
def oneDecimal (n : ℤ) : String :=
  (if n < 0 then "-" else "") ++ toString (n.natAbs / 10) ++ "." ++ toString (n.natAbs % 10)

/-- `"%s2^%.1f" % ("" if v > 0 else "-", log(abs(v), 2))`. -/
def expNotation (v : ℚ) : String :=
  (if 0 < v then "" else "-") ++ "2^" ++ oneDecimal (tenLog2 |v|)

/-- A value as `pretty_dict` sees it: a Python int, a float (exact
rational here), or anything else that fails numeric coercion and is
rendered by generic string conversion. -/
inductive PValue where
  | int (i : ℤ)
  | float (q : ℚ)
  | raw (s : String)

/-- One `"key: value"` entry of `pretty_dict` (`k` is the already quoted
key): ints within `round_bound` in an 8-wide field, larger ints in
exponent notation; floats in `[0, 10)` with 6 decimals, in `(-10, 0)`
with 5, within the bound with 3, else exponent notation. -/
def prettyEntry (rb : ℚ) (k : String) : PValue → String
  | .int i =>
      if |(i : ℚ)| > rb then k ++ ": " ++ rightJust 8 (expNotation i)
      else k ++ ": " ++ rightJust 8 (toString i)
  | .float q =>
      if 0 ≤ q ∧ q < 10 then k ++ ": " ++ formatFixed 8 6 q
      else if -10 < q ∧ q < 0 then k ++ ": " ++ formatFixed 8 5 q
      else if |q| < rb then k ++ ": " ++ formatFixed 8 3 q
      else k ++ ": " ++ rightJust 8 (expNotation q)
  | .raw s => k ++ ": " ++ s

/-- The quoted key, optionally right-justified to `keyword_width`. -/
def quoteKey (w : Option ℕ) (k : String) : String :=
  match w with
  | some width => "\"" ++ rightJust width k ++ "\""
  | none => "\"" ++ k ++ "\""

/-- `pretty_dict(d, keyword_width, round_bound)`. -/
def pretty_dict (w : Option ℕ) (rb : ℚ) (d : List (String × PValue)) : String :=
  "\x7b" ++
    String.intercalate ",  " (d.map (fun kv => prettyEntry rb (quoteKey w kv.fst) kv.snd)) ++
    "\x7d"

/-- Claim C10: pretty-printing the ordered mapping
`{"d": 2, "f": 0.1, "large": 4097}` with the default rounding bound 9999
produces exactly the documented string: small ints right-justified in an
8-character field, floats in `[0, 10)` with 6 decimals, entries joined by
a comma and two spaces inside braces. -/
theorem pretty_dict_example :
    pretty_dict none 9999 [("d", .int 2), ("f", .float (1 / 10)), ("large", .int 4097)] =
      "\x7b\"d\":        2,  \"f\": 0.100000,  \"large\":     4097\x7d" := by
  have habs : |(1 / 10 : ℚ)| = 1 / 10 := by norm_num
  have hf : (⌊(1 / 10 : ℚ) * 1000000 + 1 / 2⌋ : ℤ) = 100000 := by norm_num
  norm_num [pretty_dict, prettyEntry, quoteKey, formatFixed, round_eq, habs, hf]
  rfl

/-!
`Node.merge`: every tag of the other node's data is added into this node's
data (created when absent), the other node's label is ignored, and every
child of the other node is recursively merged into `self.child(label)` —
the existing child with that label, or a freshly created empty one.
-/

/-- The data part of `merge`: fold the other node's entries in order; an
existing key is updated in place with Python `+`, a new key is appended. -/
def mergeData : List (String × Value) → List (String × Value) →
    Except PErr (List (String × Value))
  | da, [] => .ok da
  | da, (k, v) :: tl =>
      match (match dlookup da k with
             | some u => Value.plus u v
             | none => .ok v) with
      | .error e => .error e
      | .ok w => mergeData (dAssign da k w) tl

/-- Replace the first child carrying the label (the in-place mutation of
the node `Node.child` returned). -/
def Forest.replaceFirst : Forest → Label → Node → Forest
  | .nil, _, _ => .nil
  | .cons a tl, l, m =>
      if a.label = l then .cons m tl else .cons a (Forest.replaceFirst tl l m)

/-- Append a child at the end (`Node.add_child`). -/
def Forest.push : Forest → Node → Forest
  | .nil, m => .cons m .nil
  | .cons a tl, m => .cons a (Forest.push tl m)

mutual

/-- `Node.merge(node)`: data first, then the recursive merge of each of
the other node's children into `self.child(label)`; the other's label is
ignored and `self`'s label kept. -/
def Node.merge : Node → Node → Except PErr Node
  | .mk la da ca, .mk _lb db cb =>
      match mergeData da db with
      | .error e => .error e
      | .ok d =>
          match Forest.mergeChildren ca cb with
          | .error e => .error e
          | .ok c => .ok (.mk la d c)

def Forest.mergeChildren : Forest → Forest → Except PErr Forest
  | acs, .nil => .ok acs
  | acs, .cons cb tl =>
      match ((match Forest.findDirect acs cb.label with
             | some ca =>
                 match Node.merge ca cb with
                 | .error e => .error e
                 | .ok m => .ok (Forest.replaceFirst acs cb.label m)
             | none =>
                 match Node.merge (.mk cb.label [] .nil) cb with
                 | .error e => .error e
                 | .ok m => .ok (Forest.push acs m)) : Except PErr Forest) with
      | .error e => .error e
      | .ok acs' => Forest.mergeChildren acs' tl

end

/-- Follow a path of labels from a node, descending at each step into the
first child carrying the next label. -/
def Node.atPath : Node → List Label → Option Node
  | n, [] => some n
  | n, l :: p =>
      match Forest.findDirect n.children l with
      | some c => c.atPath p
      | none => none

/-- The value stored under `t` at the node reached by the path (absent if
the path or the tag is missing). -/
def dataAt (n : Node) (p : List Label) (t : String) : Option Value :=
  match n.atPath p with
  | some m => dlookup m.data t
  | none => none

/-- Addition of two optional data values, an absent operand contributing
nothing: the declarative "pre-merge sum treating absent as zero". -/
def plusOpt : Option Value → Option Value → Option Value
  | none, y => y
  | some a, none => some a
  | some a, some b => (Value.plus a b).toOption

/-- Keys of an ordered dictionary are pairwise distinct (Python
`OrderedDict` always satisfies this). -/
def dKeysUnique : List (String × Value) → Bool
  | [] => true
  | (k, _) :: tl => (dlookup tl k).isNone && dKeysUnique tl

/-- Sibling labels are pairwise distinct. -/
def Forest.labelsUnique : Forest → Bool
  | .nil => true
  | .cons c tl => (Forest.findDirect tl c.label).isNone && Forest.labelsUnique tl

mutual

/-- Well-formedness of a trace tree as the tracers build it: unique data
keys and unique sibling labels throughout. -/
def Node.wfB : Node → Bool
  | .mk _ d cs => dKeysUnique d && Forest.labelsUnique cs && Forest.wfAll cs

def Forest.wfAll : Forest → Bool
  | .nil => true
  | .cons c tl => Node.wfB c && Forest.wfAll tl

end

theorem plusOpt_none_right (x : Option Value) : plusOpt x none = x := by
  cases x <;> rfl

theorem dlookup_dAssign (d : List (String × Value)) (k : String) (v : Value) (t : String) :
    dlookup (dAssign d k v) t = if k = t then some v else dlookup d t := by
  induction d with
  | nil => simp [dAssign, dlookup]
  | cons hd tl ih =>
      obtain ⟨k₀, v₀⟩ := hd
      by_cases h : k₀ = k
      · subst h
        by_cases ht : k₀ = t <;> simp [dAssign, dlookup, ht]
      · by_cases ht : k₀ = t
        · subst ht
          have hk : ¬k = k₀ := fun hk => h hk.symm
          simp [dAssign, dlookup, h, hk]
        · simp [dAssign, dlookup, h, ht, ih]

theorem Forest.findDirect_label (f : Forest) (l : Label) (c : Node)
    (h : Forest.findDirect f l = some c) : c.label = l := by
  cases f with
  | nil => exact absurd h (by simp [Forest.findDirect])
  | cons a tl =>
      by_cases ha : a.label = l
      · simp only [Forest.findDirect, if_pos ha] at h
        cases h
        exact ha
      · simp only [Forest.findDirect, if_neg ha] at h
        exact Forest.findDirect_label tl l c h

theorem Forest.findDirect_replaceFirst (acs : Forest) (lbl : Label) (m ca : Node)
    (hex : Forest.findDirect acs lbl = some ca) (hml : m.label = lbl) (l : Label) :
    Forest.findDirect (Forest.replaceFirst acs lbl m) l =
      if l = lbl then some m else Forest.findDirect acs l := by
  cases acs with
  | nil => exact absurd hex (by simp [Forest.findDirect])
  | cons a tl =>
      by_cases ha : a.label = lbl
      · by_cases hl : l = lbl
        · subst hl
          simp [Forest.replaceFirst, Forest.findDirect, ha, hml]
        · have hll : ¬lbl = l := fun hx => hl hx.symm
          have hma : ¬m.label = l := by rw [hml]; exact hll
          simp [Forest.replaceFirst, Forest.findDirect, ha, hma, hl, hll]
      · have hex' : Forest.findDirect tl lbl = some ca := by
          simpa [Forest.findDirect, ha] using hex
        have ih := Forest.findDirect_replaceFirst tl lbl m ca hex' hml l
        by_cases hal : a.label = l
        · have hl : ¬l = lbl := by rw [← hal]; exact fun hx => ha hx
          simp [Forest.replaceFirst, Forest.findDirect, ha, hal, hl]
        · simp [Forest.replaceFirst, Forest.findDirect, ha, hal, ih]

theorem Forest.findDirect_push (acs : Forest) (m : Node) (l : Label) :
    Forest.findDirect (Forest.push acs m) l =
      match Forest.findDirect acs l with
      | some x => some x
      | none => if m.label = l then some m else none := by
  cases acs with
  | nil => simp [Forest.push, Forest.findDirect]
  | cons a tl =>
      by_cases hal : a.label = l
      · simp [Forest.push, Forest.findDirect, hal]
      · have ih := Forest.findDirect_push tl m l
        simp [Forest.push, Forest.findDirect, hal, ih]

theorem Forest.findDirect_wfAll (f : Forest) (l : Label) (c : Node)
    (hw : Forest.wfAll f = true) (h : Forest.findDirect f l = some c) :
    Node.wfB c = true := by
  cases f with
  | nil => exact absurd h (by simp [Forest.findDirect])
  | cons a tl =>
      have hw' := hw
      unfold Forest.wfAll at hw'
      simp only [Bool.and_eq_true] at hw'
      by_cases ha : a.label = l
      · simp only [Forest.findDirect, if_pos ha] at h
        cases h
        exact hw'.1
      · simp only [Forest.findDirect, if_neg ha] at h
        exact Forest.findDirect_wfAll tl l c hw'.2 h

theorem dataAt_emptyNode (l : Label) (p : List Label) (t : String) :
    dataAt (.mk l [] .nil) p t = none := by
  cases p with
  | nil => rfl
  | cons l' p' => simp [dataAt, Node.atPath, Node.children, Forest.findDirect]

theorem Node.merge_label (A B A' : Node) (hm : A.merge B = .ok A') :
    A'.label = A.label := by
  cases A with
  | mk la da ca =>
      cases B with
      | mk lb db cb =>
          unfold Node.merge at hm
          cases hd : mergeData da db with
          | error e => rw [hd] at hm; exact absurd hm (by simp)
          | ok d =>
              rw [hd] at hm
              cases hc : Forest.mergeChildren ca cb with
              | error e => rw [hc] at hm; exact absurd hm (by simp)
              | ok c =>
                  rw [hc] at hm
                  cases hm
                  rfl

theorem mergeData_lookup (db da d' : List (String × Value))
    (hu : dKeysUnique db = true) (hm : mergeData da db = .ok d') (t : String) :
    dlookup d' t = plusOpt (dlookup da t) (dlookup db t) := by
  cases db with
  | nil =>
      cases hm
      simp [dlookup, plusOpt_none_right]
  | cons hd tl =>
      obtain ⟨k, v⟩ := hd
      have hu' := hu
      unfold dKeysUnique at hu'
      simp only [Bool.and_eq_true, Option.isNone_iff_eq_none] at hu'
      unfold mergeData at hm
      cases hda : dlookup da k with
      | some u =>
          rw [hda] at hm
          simp only at hm
          cases hw : Value.plus u v with
          | error e => rw [hw] at hm; exact absurd hm (by simp)
          | ok w =>
              rw [hw] at hm
              simp only at hm
              have ih := mergeData_lookup tl (dAssign da k w) d' hu'.2 hm t
              rw [dlookup_dAssign] at ih
              by_cases hkt : k = t
              · subst hkt
                rw [if_pos rfl, hu'.1, plusOpt_none_right] at ih
                simp [ih, dlookup, hda, plusOpt, hw, Except.toOption]
              · rw [if_neg hkt] at ih
                simp [ih, dlookup, hkt]
      | none =>
          rw [hda] at hm
          simp only at hm
          have ih := mergeData_lookup tl (dAssign da k v) d' hu'.2 hm t
          rw [dlookup_dAssign] at ih
          by_cases hkt : k = t
          · subst hkt
            rw [if_pos rfl, hu'.1, plusOpt_none_right] at ih
            simp [ih, dlookup, hda, plusOpt]
          · rw [if_neg hkt] at ih
            simp [ih, dlookup, hkt]

theorem Forest.mergeChildren_find (bcs acs cs' : Forest) (l : Label)
    (hu : Forest.labelsUnique bcs = true)
    (hm : Forest.mergeChildren acs bcs = .ok cs') :
    (Forest.findDirect bcs l = none → Forest.findDirect cs' l = Forest.findDirect acs l) ∧
    (∀ cb, Forest.findDirect bcs l = some cb →
      ∃ ca', Node.merge ((Forest.findDirect acs l).getD (.mk l [] .nil)) cb = .ok ca' ∧
        Forest.findDirect cs' l = some ca') := by
  cases bcs with
  | nil =>
      unfold Forest.mergeChildren at hm
      cases hm
      constructor
      · intro _
        rfl
      · intro cb hcb
        exact absurd hcb (by simp [Forest.findDirect])
  | cons cb tl =>
      have hu' := hu
      unfold Forest.labelsUnique at hu'
      simp only [Bool.and_eq_true, Option.isNone_iff_eq_none] at hu'
      have hft := hu'.1
      have hutl := hu'.2
      unfold Forest.mergeChildren at hm
      cases hfa : Forest.findDirect acs cb.label with
      | some ca =>
          rw [hfa] at hm
          simp only at hm
          cases hmg : Node.merge ca cb with
          | error e => rw [hmg] at hm; exact absurd hm (by simp)
          | ok m =>
              rw [hmg] at hm
              simp only at hm
              have hml : m.label = cb.label := by
                rw [Node.merge_label ca cb m hmg]
                exact Forest.findDirect_label acs cb.label ca hfa
              have hrepl := Forest.findDirect_replaceFirst acs cb.label m ca hfa hml
              have ih := Forest.mergeChildren_find tl
                (Forest.replaceFirst acs cb.label m) cs' l hutl hm
              constructor
              · intro hnone
                by_cases hcl : cb.label = l
                · rw [show Forest.findDirect (.cons cb tl) l = some cb by
                    simp [Forest.findDirect, hcl]] at hnone
                  exact absurd hnone (by simp)
                · have hnone' : Forest.findDirect tl l = none := by
                    simpa [Forest.findDirect, hcl] using hnone
                  rw [ih.1 hnone', hrepl l,
                    if_neg (fun hx : l = cb.label => hcl hx.symm)]
              · intro cb₀ hsome
                by_cases hcl : cb.label = l
                · have hcb₀ : cb₀ = cb := by
                    rw [show Forest.findDirect (.cons cb tl) l = some cb by
                      simp [Forest.findDirect, hcl]] at hsome
                    cases hsome
                    rfl
                  rw [hcb₀]
                  subst hcl
                  refine ⟨m, ?_, ?_⟩
                  · rw [hfa]
                    exact hmg
                  · rw [ih.1 hft, hrepl cb.label, if_pos rfl]
                · have hsome' : Forest.findDirect tl l = some cb₀ := by
                    simpa [Forest.findDirect, hcl] using hsome
                  have hres := ih.2 cb₀ hsome'
                  rwa [hrepl l, if_neg (fun hx : l = cb.label => hcl hx.symm)] at hres
      | none =>
          rw [hfa] at hm
          simp only at hm
          cases hmg : Node.merge (.mk cb.label [] .nil) cb with
          | error e => rw [hmg] at hm; exact absurd hm (by simp)
          | ok m =>
              rw [hmg] at hm
              simp only at hm
              have hml : m.label = cb.label :=
                Node.merge_label (.mk cb.label [] .nil) cb m hmg
              have hpush := Forest.findDirect_push acs m
              have ih := Forest.mergeChildren_find tl (Forest.push acs m) cs' l hutl hm
              constructor
              · intro hnone
                by_cases hcl : cb.label = l
                · rw [show Forest.findDirect (.cons cb tl) l = some cb by
                    simp [Forest.findDirect, hcl]] at hnone
                  exact absurd hnone (by simp)
                · have hnone' : Forest.findDirect tl l = none := by
                    simpa [Forest.findDirect, hcl] using hnone
                  rw [ih.1 hnone', hpush l]
                  cases hax : Forest.findDirect acs l with
                  | some x => simp
                  | none =>
                      simp only
                      rw [if_neg (by rw [hml]; exact hcl)]
              · intro cb₀ hsome
                by_cases hcl : cb.label = l
                · have hcb₀ : cb₀ = cb := by
                    rw [show Forest.findDirect (.cons cb tl) l = some cb by
                      simp [Forest.findDirect, hcl]] at hsome
                    cases hsome
                    rfl
                  rw [hcb₀]
                  subst hcl
                  refine ⟨m, ?_, ?_⟩
                  · rw [hfa]
                    exact hmg
                  · rw [ih.1 hft, hpush cb.label, hfa]
                    simp only
                    rw [if_pos hml]
                · have hsome' : Forest.findDirect tl l = some cb₀ := by
                    simpa [Forest.findDirect, hcl] using hsome
                  have hres := ih.2 cb₀ hsome'
                  have hrw : Forest.findDirect (Forest.push acs m) l =
                      Forest.findDirect acs l := by
                    rw [hpush l]
                    cases hax : Forest.findDirect acs l with
                    | some x => simp
                    | none =>
                        simp only
                        rw [if_neg (by rw [hml]; exact hcl)]
                  rwa [hrw] at hres

theorem dataAt_cons (n : Node) (l : Label) (p : List Label) (t : String) :
    dataAt n (l :: p) t =
      match Forest.findDirect n.children l with
      | some c => dataAt c p t
      | none => none := by
  cases n with
  | mk la d cs =>
      cases hf : Forest.findDirect cs l <;>
        simp [dataAt, Node.atPath, Node.children, hf]

theorem Node.merge_dataAt (p : List Label) (A B A' : Node) (hw : Node.wfB B = true)
    (hm : A.merge B = .ok A') (t : String) :
    dataAt A' p t = plusOpt (dataAt A p t) (dataAt B p t) := by
  cases A with
  | mk la da ca =>
  cases B with
  | mk lb db cb =>
      have hw' := hw
      unfold Node.wfB at hw'
      simp only [Bool.and_eq_true] at hw'
      unfold Node.merge at hm
      cases hd : mergeData da db with
      | error e => rw [hd] at hm; exact absurd hm (by simp)
      | ok d =>
          rw [hd] at hm
          simp only at hm
          cases hc : Forest.mergeChildren ca cb with
          | error e => rw [hc] at hm; exact absurd hm (by simp)
          | ok cs' =>
              rw [hc] at hm
              simp only at hm
              injection hm with hinj
              subst hinj
              cases p with
              | nil =>
                  have hmd := mergeData_lookup db da d hw'.1.1 hd t
                  simpa [dataAt, Node.atPath, Node.data] using hmd
              | cons l p' =>
                  have hfind := Forest.mergeChildren_find cb ca cs' l hw'.1.2 hc
                  rw [dataAt_cons, dataAt_cons, dataAt_cons]
                  show (match Forest.findDirect cs' l with
                      | some c => dataAt c p' t
                      | none => none) =
                    plusOpt
                      (match Forest.findDirect ca l with
                        | some c => dataAt c p' t
                        | none => none)
                      (match Forest.findDirect cb l with
                        | some c => dataAt c p' t
                        | none => none)
                  cases hb : Forest.findDirect cb l with
                  | none =>
                      rw [hfind.1 hb, plusOpt_none_right]
                  | some cbc =>
                      obtain ⟨ca', hmg, hcs⟩ := hfind.2 cbc hb
                      have hwc : Node.wfB cbc = true :=
                        Forest.findDirect_wfAll cb l cbc hw'.2 hb
                      have ih := Node.merge_dataAt p'
                        ((Forest.findDirect ca l).getD (.mk l [] .nil)) cbc ca' hwc hmg t
                      rw [hcs]
                      cases hca : Forest.findDirect ca l with
                      | some cac =>
                          rw [hca] at ih
                          simp only [Option.getD] at ih
                          exact ih
                      | none =>
                          rw [hca] at ih
                          simp only [Option.getD, dataAt_emptyNode] at ih
                          simpa [plusOpt] using ih

/-- Claim C4: merging tree `B` into tree `A` keeps `A`'s root label (`B`'s
is ignored), and at every node position and tag the merged tree holds the
pre-merge sum of `A`'s and `B`'s values there, an absent entry
contributing nothing — children of `B` being recursively merged into the
equally-labelled child of `A`, created when absent. -/
theorem node_merge_spec (A B A' : Node) (hw : Node.wfB B = true)
    (hm : A.merge B = .ok A') :
    A'.label = A.label ∧
    ∀ p t, dataAt A' p t = plusOpt (dataAt A p t) (dataAt B p t) :=
  ⟨Node.merge_label A B A' hm, fun p t => Node.merge_dataAt p A B A' hw hm t⟩

/-- Concrete trees for the C4 witness. -/
def mergeSampleA : Node :=
  .mk (.atom (.str "root")) [("x", .num 1)]
    (.cons (.mk (.atom (.str "L")) [("y", .num 2)] .nil) .nil)

def mergeSampleB : Node :=
  .mk (.atom (.str "rootB")) [("x", .num 10), ("z", .num 5)]
    (.cons (.mk (.atom (.str "L")) [("y", .num 20)] .nil)
      (.cons (.mk (.atom (.str "M")) [("w", .num 7)] .nil) .nil))

def mergeSampleMerged : Node :=
  .mk (.atom (.str "root")) [("x", .num (1 + 10)), ("z", .num 5)]
    (.cons (.mk (.atom (.str "L")) [("y", .num (2 + 20))] .nil)
      (.cons (.mk (.atom (.str "M")) [("w", .num 7)] .nil) .nil))

/-- Witness for C4 at a concrete input. -/
theorem node_merge_spec_witness :
    Node.wfB mergeSampleB = true ∧
    mergeSampleA.merge mergeSampleB = .ok mergeSampleMerged ∧
    dataAt mergeSampleMerged [Label.atom (.str "L")] "y" =
      plusOpt (dataAt mergeSampleA [Label.atom (.str "L")] "y")
        (dataAt mergeSampleB [Label.atom (.str "L")] "y") :=
  ⟨rfl, rfl,
    (node_merge_spec mergeSampleA mergeSampleB mergeSampleMerged rfl rfl).2
      [Label.atom (.str "L")] "y"⟩

mutual

/-- Every value stored under `tag` anywhere in the subtree is a plain
number or a `Statistic` of the single mode `m` — the invariant the
tracers maintain per tag (cputime/walltime/#enum are sum-mode, % is
avg-mode, r_0 and / are min-mode). -/
def Node.modeUniform (tag : String) (m : Mode) : Node → Bool
  | .mk _ d cs =>
      (match dlookup d tag with
       | some (.stat s) => decide (s.srepr = m)
       | _ => true) && Forest.modeUniform tag m cs

def Forest.modeUniform (tag : String) (m : Mode) : Forest → Bool
  | .nil => true
  | .cons c tl => Node.modeUniform tag m c && Forest.modeUniform tag m tl

end

/-- A data value compatible with mode `m`: any number, or a statistic of
mode `m`. -/
def valueModeOk (m : Mode) : Value → Bool
  | .num _ => true
  | .stat s => decide (s.srepr = m)

theorem value_plus_modeOk (m : Mode) (a b : Value)
    (ha : valueModeOk m a = true) (hb : valueModeOk m b = true) :
    ∃ c, Value.plus a b = .ok c ∧ valueModeOk m c = true := by
  cases a with
  | num x =>
      cases b with
      | num y => exact ⟨.num (x + y), rfl, rfl⟩
      | stat s =>
          refine ⟨.stat (s.add x), rfl, ?_⟩
          simpa [valueModeOk, Statistic.add] using hb
  | stat s =>
      cases b with
      | num y =>
          refine ⟨.stat (s.add y), rfl, ?_⟩
          simpa [valueModeOk, Statistic.add] using ha
      | stat t =>
          have hs : s.srepr = m := by simpa [valueModeOk] using ha
          have ht : t.srepr = m := by simpa [valueModeOk] using hb
          refine ⟨.stat (s.combine t), ?_, ?_⟩
          · simp [Value.plus, Statistic.plus, hs, ht]
          · simpa [valueModeOk, Statistic.combine] using hs

mutual

theorem Node.sumT_total_nonstrict (tag : String) (m : Mode) (flt : Option Label)
    (isf : Bool) (n : Node) (h : Node.modeUniform tag m n = true) :
    ∃ v, Node.sumT tag false flt isf n = .ok v ∧ valueModeOk m v = true := by
  cases n with
  | mk lbl d cs =>
      have h' := h
      unfold Node.modeUniform at h'
      simp only [Bool.and_eq_true] at h'
      by_cases hc : isf = true ∧ (flt = none ∨ flt = some lbl)
      · cases hd : dlookup d tag with
        | none =>
            have hrest := Forest.sumT_total_fold tag m flt (.num 0) cs h'.2 rfl
            obtain ⟨v, hv, hvm⟩ := hrest
            refine ⟨v, ?_, hvm⟩
            simpa [Node.sumT, hd, hc] using hv
        | some w =>
            have hw : valueModeOk m w = true := by
              cases w with
              | num q => rfl
              | stat s =>
                  have := h'.1
                  rw [hd] at this
                  simpa [valueModeOk] using this
            obtain ⟨v, hv, hvm⟩ := Forest.sumT_total_fold tag m flt w cs h'.2 hw
            refine ⟨v, ?_, hvm⟩
            simpa [Node.sumT, hd, hc] using hv
      · obtain ⟨v, hv, hvm⟩ := Forest.sumT_total_fold tag m flt (.num 0) cs h'.2 rfl
        refine ⟨v, ?_, hvm⟩
        simpa [Node.sumT, hc] using hv

theorem Forest.sumT_total_fold (tag : String) (m : Mode) (flt : Option Label)
    (r : Value) (f : Forest) (h : Forest.modeUniform tag m f = true)
    (hr : valueModeOk m r = true) :
    ∃ v, Forest.sumT tag false flt r f = .ok v ∧ valueModeOk m v = true := by
  cases f with
  | nil => exact ⟨r, rfl, hr⟩
  | cons c tl =>
      have h' := h
      unfold Forest.modeUniform at h'
      simp only [Bool.and_eq_true] at h'
      obtain ⟨s, hs, hsm⟩ := Node.sumT_total_nonstrict tag m flt true c h'.1
      obtain ⟨r', hr', hrm⟩ := value_plus_modeOk m r s hr hsm
      obtain ⟨v, hv, hvm⟩ := Forest.sumT_total_fold tag m flt r' tl h'.2 hrm
      refine ⟨v, ?_, hvm⟩
      simp [Forest.sumT, hs, hr', hv]

end

/-- Rendering is total: `pretty_dict` returns a string on every input
(always at least the enclosing braces). -/
theorem pretty_dict_ne_empty (w : Option ℕ) (rb : ℚ) (d : List (String × PValue)) :
    pretty_dict w rb d ≠ "" := by
  intro heq
  have hlen := congrArg String.length heq
  rw [pretty_dict, String.length_append, String.length_append] at hlen
  have h1 : ("\x7b" : String).length = 1 := rfl
  have h2 : ("\x7d" : String).length = 1 := rfl
  have h0 : ("" : String).length = 0 := rfl
  rw [h1, h2, h0] at hlen
  omega

/-- Claim C8 (amended): `Statistic` construction, `add` and the three-way
plus dispatch are total, failing only with the specified mode-mismatch
error — every dispatch on an absent operand, a numeric operand, or a
`Statistic` operand of equal mode succeeds; non-strict tree sums succeed
on every subtree whose values at the tag share a single statistic mode
(the invariant the tracers maintain per tag); rendering always returns a
(non-empty) string; and scalarization returns a number whenever the mode
is `min`, `max` or `sum`, or the observation count is nonzero — only
`avg`/`variance` scalarization of a `Statistic` constructed with the
observation suppressed (count = 0) and never added to fails. -/
theorem statistic_ops_total (s t : Statistic) (x : ℚ) (tag : String) (m : Mode)
    (flt : Option Label) (isf : Bool) (n : Node) (w : Option ℕ) (rb : ℚ)
    (d : List (String × PValue)) :
    exceptOk (s.plus none) = true ∧
    exceptOk (s.plus (some (.num x))) = true ∧
    (s.srepr = t.srepr → exceptOk (s.plus (some (.stat t))) = true) ∧
    (Node.modeUniform tag m n = true →
      exceptOk (Node.sumT tag false flt isf n) = true) ∧
    pretty_dict w rb d ≠ "" ∧
    ((s.sctr ≠ 0 ∨ s.srepr = Mode.min ∨ s.srepr = Mode.max ∨ s.srepr = Mode.sum) →
      s.scalarize.isSome = true) := by
  refine ⟨rfl, rfl, ?_, ?_, pretty_dict_ne_empty w rb d, ?_⟩
  · intro hmode
    simp [Statistic.plus, hmode, exceptOk]
  · intro hmu
    obtain ⟨v, hv, _⟩ := Node.sumT_total_nonstrict tag m flt isf n hmu
    simp [hv, exceptOk]
  · intro h
    rcases h with h | h | h | h
    · cases hm : s.srepr <;>
        simp [Statistic.scalarize, Statistic.avgQ, Statistic.varianceQ, hm, h]
    all_goals simp [Statistic.scalarize, h]

/-- A tree whose tag `a` holds an avg-mode statistic at the root while
the child lacks the tag: the domain on which `sum` is exercised by the
tracer (statistics stored under summed tags). -/
def sumStatSample : Node :=
  .mk (.atom (.str "root")) [("a", .stat (Statistic.new 4 Mode.avg true))]
    (.cons (.mk (.atom (.str "c")) [] .nil) .nil)

/-- Witness for C8's amended theorem at concrete inputs, discharging each
hypothesis: equal-mode statistic dispatch, a mode-uniform tree containing
an avg-mode statistic, and a nonzero-count statistic. -/
theorem statistic_ops_total_witness :
    ((Statistic.new 2 Mode.sum true).srepr = (Statistic.new 3 Mode.sum false).srepr ∧
      exceptOk ((Statistic.new 2 Mode.sum true).plus
        (some (.stat (Statistic.new 3 Mode.sum false)))) = true) ∧
    (Node.modeUniform "a" Mode.avg sumStatSample = true ∧
      exceptOk (Node.sumT "a" false none true sumStatSample) = true) ∧
    ((Statistic.new 2 Mode.avg true).sctr ≠ 0 ∧
      (Statistic.new 2 Mode.avg true).scalarize.isSome = true) :=
  ⟨⟨rfl,
    (statistic_ops_total (Statistic.new 2 Mode.sum true) (Statistic.new 3 Mode.sum false)
      0 "a" Mode.avg none true sumStatSample none 0 []).2.2.1 rfl⟩,
   ⟨rfl,
    (statistic_ops_total (Statistic.new 2 Mode.sum true) (Statistic.new 3 Mode.sum false)
      0 "a" Mode.avg none true sumStatSample none 0 []).2.2.2.1 rfl⟩,
   ⟨by decide,
    (statistic_ops_total (Statistic.new 2 Mode.avg true) (Statistic.new 3 Mode.sum false)
      0 "a" Mode.avg none true sumStatSample none 0 []).2.2.2.2.2 (Or.inl (by decide))⟩⟩

/-- Counterexample to claim C6 as stated: `sum` does not treat an
included node missing the tag as contributing a neutral 0 when the tag
holds `Statistic` values.  On `sumStatSample` the non-strict sum is not
the total over the nodes that define the tag (the root's avg-mode
statistic, one observation, average 4): the child missing the tag
contributes the plain number 0, which Python `+` folds into the running
statistic as one more observation, leaving two observations and
average 2. -/
theorem sum_missing_tag_perturbs :
    Node.sumT "a" false none true sumStatSample =
      .ok (.stat ((Statistic.new 4 Mode.avg true).add 0)) ∧
    Node.sumT "a" false none true sumStatSample ≠
      .ok (.stat (Statistic.new 4 Mode.avg true)) ∧
    ((Statistic.new 4 Mode.avg true).add 0).sctr = 2 ∧
    (Statistic.new 4 Mode.avg true).sctr = 1 ∧
    ((Statistic.new 4 Mode.avg true).add 0).avgQ = some 2 ∧
    (Statistic.new 4 Mode.avg true).avgQ = some 4 := by
  have h1 : Node.sumT "a" false none true sumStatSample =
      .ok (.stat ((Statistic.new 4 Mode.avg true).add 0)) := rfl
  refine ⟨h1, ?_, rfl, rfl, ?_, ?_⟩
  · intro heq
    rw [h1] at heq
    have h2 := congrArg (fun e =>
      match e with
      | Except.ok (Value.stat s) => s.sctr
      | _ => 0) heq
    simp only [Statistic.add, Statistic.new] at h2
    exact absurd h2 (by decide)
  · norm_num [Statistic.avgQ, Statistic.add, Statistic.new]
  · norm_num [Statistic.avgQ, Statistic.new]
